import Mathlib

/-!
Verification of the Quantum-Programming repository's error-mitigation core
(`src/Cirq/quantum_error_mitigation.py`, `quantum_addition.py`,
`quantum_crypto_bb84.py`) against its natural-language specification.

The circuit data model (qubits as labels, operations, moments, circuits)
follows the spec's §3 data model, which the Python source realises through
the external `cirq` library.  Machine floats (scale factors, probabilities,
angles) are modelled as rationals; amplitudes of the claim-relevant circuit
family (H / X / CNOT / CCNOT) are exact real dyadics, stored as an integer
vector together with a power-of-√2 normalisation exponent.
-/

namespace QEM

/-- The fixed gate/channel catalog of spec §4.2.  `meas` carries the result
key of a measurement operation; `depolarize` is the single-qubit
depolarizing channel. -/
inductive Gate where
  | H : Gate
  | X : Gate
  | CNOT : Gate
  | CCNOT : Gate
  | Rz : ℚ → Gate
  | meas : String → Gate
  | depolarize : ℚ → Gate
deriving DecidableEq, Repr

/-- A gate or measurement tagged with its (ordered) qubit operands,
spec §3 "Operation".  Qubits are opaque labels, here natural numbers. -/
structure Operation where
  gate : Gate
  qubits : List Nat
deriving DecidableEq, Repr

/-- A moment: a group of operations applied simultaneously (spec §3). -/
abbrev Moment := List Operation

/-- A circuit: an ordered sequence of moments (spec §3). -/
abbrev Circuit := List Moment

/-- Does this gate kind carry a measurement (the `isinstance(op.gate,
cirq.MeasurementGate)` test of the source)? -/
def Gate.isMeas : Gate → Bool
  | Gate.meas _ => true
  | _ => false

/-- An operation is a measurement operation iff its gate is. -/
def isMeasOp (op : Operation) : Bool := op.gate.isMeas

/-- Inverse of a catalog gate (spec §4.2): H, X, CNOT, CCNOT are
self-inverse and the Z-rotation negates its angle.  `cirq.inverse` is
undefined on measurements and channels (the Python call raises); the fold
transform only reaches this function on unitary gates, so those two cases
are mapped to themselves and are unreachable under the circuit invariant
used below. -/
def Gate.inv : Gate → Gate
  | Gate.H => Gate.H
  | Gate.X => Gate.X
  | Gate.CNOT => Gate.CNOT
  | Gate.CCNOT => Gate.CCNOT
  | Gate.Rz θ => Gate.Rz (-θ)
  | Gate.meas k => Gate.meas k
  | Gate.depolarize p => Gate.depolarize p

/-- `cirq.inverse(op)`: invert the gate, keep the operands. -/
def inverseOp (op : Operation) : Operation := ⟨op.gate.inv, op.qubits⟩

/-- All qubit labels touched by a moment. -/
def momentQubits : Moment → List Nat
  | [] => []
  | op :: m => op.qubits ++ momentQubits m

/-- Does `op` touch a qubit already used in moment `m`?  This is the
qubit-conflict test that drives `cirq.Circuit.append` scheduling. -/
def conflicts (m : Moment) (op : Operation) : Bool :=
  op.qubits.any (fun q => (momentQubits m).contains q)

/-- Index of the latest moment of the circuit that conflicts with `op`
(`none` when no moment does). -/
def lastConflict : Circuit → Operation → Option Nat
  | [], _ => none
  | m :: ms, op =>
    match lastConflict ms op with
    | some i => some (i + 1)
    | none => if conflicts m op then some 0 else none

/-- Place `op` into the moment at index `i`, or into a fresh trailing
moment when `i` is past the end. -/
def placeAt : Circuit → Nat → Operation → Circuit
  | [], _, op => [[op]]
  | m :: ms, 0, op => (m ++ [op]) :: ms
  | m :: ms, i + 1, op => m :: placeAt ms i op

/-- Modelled from the spec: appending a single operation to a circuit.
The Python source delegates to `cirq.Circuit.append` (external library,
default `EARLIEST_OR_NEW` strategy), which the spec's §4.3 describes as
the scheduling policy "minimize moment count subject to the
no-shared-qubit-per-moment invariant": the operation is placed into the
moment just after the latest moment that uses one of its qubits (a fresh
trailing moment when that latest moment is the last one), and into the
first moment when no moment conflicts. -/
def appendOp (c : Circuit) (op : Operation) : Circuit :=
  match lastConflict c op with
  | none => placeAt c 0 op
  | some i => placeAt c (i + 1) op

/-- Modelled from the spec: appending a whole moment.  `cirq` inserts
`Moment` objects into the moment list intact (spec §4.3 concatenation
semantics: moments keep their identity and order). -/
def appendMoment (c : Circuit) (m : Moment) : Circuit := c ++ [m]

/-- Python's `int()` applied to a rational: truncation toward zero. -/
def pyInt (q : ℚ) : ℤ := if 0 ≤ q then ⌊q⌋ else ⌈q⌉

/-- `num_folds = int((scale_factor - 1.0) * 2)` of the source, as a
repetition count (Python's `range` treats a negative count as zero). -/
def numFolds (s : ℚ) : Nat := (pyInt ((s - 1) * 2)).toNat

/-- The body of the fold's inner loop (`scaled_circuit.append(op);
scaled_circuit.append(cirq.inverse(op))` of the source): append an
operation and then its inverse. -/
def foldStep (a : Circuit) (op : Operation) : Circuit :=
  appendOp (appendOp a op) (inverseOp op)

/-- The main loop of `scale_noise` at a fixed fold count `n`: every moment
without a measurement operation is appended and then each of its
operations is appended together with its inverse, `n` times over;
measurement-containing moments are appended unchanged. -/
def scaleLoop (n : Nat) (c : Circuit) : Circuit :=
  c.foldl
    (fun acc M =>
      if M.any isMeasOp then appendMoment acc M
      else
        (List.range n).foldl
          (fun acc2 _ => M.foldl foldStep acc2)
          (appendMoment acc M))
    []

/-- `scale_noise(circuit, scale_factor)` of
`src/Cirq/quantum_error_mitigation.py` lines 104–140: scale factor 1.0
returns the input unchanged; any other scale factor runs the folding loop
with `num_folds = int((scale_factor - 1.0) * 2)` repetitions. -/
def scale_noise (c : Circuit) (s : ℚ) : Circuit :=
  if s = 1 then c else scaleLoop (numFolds s) c

/-- The per-op inverse of a moment. -/
def invMoment (M : Moment) : Moment := M.map inverseOp

/-- `n` folded repetitions of a moment: the moment's operations followed
immediately by their inverses, as a pair of moments per repetition. -/
def repBlock (M : Moment) : Nat → List Moment
  | 0 => []
  | n + 1 => M :: invMoment M :: repBlock M n

/-- The emission the specification describes for one input moment: a
measurement moment passes through unchanged; any other moment is emitted
and then folded `n` times. -/
def foldBlock (n : Nat) (M : Moment) : List Moment :=
  if M.any isMeasOp then [M] else M :: repBlock M n

/-- The moment sequence the specification's §4.5 fold contract describes,
moment order preserved. -/
def foldSpec (n : Nat) : Circuit → Circuit
  | [] => []
  | M :: ms => foldBlock n M ++ foldSpec n ms

/-- Two operations act on disjoint qubit sets. -/
def opDisjoint (o1 o2 : Operation) : Prop :=
  ∀ q, q ∈ o1.qubits → q ∈ o2.qubits → False

instance (o1 o2 : Operation) : Decidable (opDisjoint o1 o2) := by
  unfold opDisjoint; infer_instance

/-- The spec's §3 moment invariant, restricted to the moments the fold
transform rewrites: a non-measurement moment is nonempty, its operations
touch pairwise disjoint qubits, and every operation has at least one
operand. -/
def momentOk (M : Moment) : Prop :=
  M ≠ [] ∧ M.Pairwise opDisjoint ∧ ∀ op ∈ M, op.qubits ≠ []

/-- Spec §3 circuit invariant, as needed by the fold: every moment that
contains no measurement satisfies `momentOk`. -/
def circuitOk (c : Circuit) : Prop :=
  ∀ M ∈ c, M.any isMeasOp = false → momentOk M

instance (M : Moment) : Decidable (momentOk M) := by
  unfold momentOk; infer_instance

instance (c : Circuit) : Decidable (circuitOk c) := by
  unfold circuitOk; infer_instance

/-- Total number of operations in a circuit. -/
def opCount (c : Circuit) : Nat := (c.map List.length).sum

/-! ### The concrete circuits built by the repository's scripts -/

def hOp (q : Nat) : Operation := ⟨Gate.H, [q]⟩
def xOp (q : Nat) : Operation := ⟨Gate.X, [q]⟩
def cnotOp (c t : Nat) : Operation := ⟨Gate.CNOT, [c, t]⟩
def ccnotOp (c1 c2 t : Nat) : Operation := ⟨Gate.CCNOT, [c1, c2, t]⟩
def measOp (q : Nat) (k : String) : Operation := ⟨Gate.meas k, [q]⟩

/-- `create_test_circuit` of `quantum_error_mitigation.py` lines 18–37:
Bell-state preparation (H on qubit 0, CNOT 0→1) followed by measurement of
both qubits, assembled through the library's append scheduling. -/
def create_test_circuit : Circuit :=
  [hOp 0, cnotOp 0 1, measOp 0 "q0", measOp 1 "q1"].foldl appendOp []

/-! ### Structure of the fold transform -/

lemma inverseOp_qubits (op : Operation) : (inverseOp op).qubits = op.qubits := rfl

lemma momentQubits_append (m1 m2 : Moment) :
    momentQubits (m1 ++ m2) = momentQubits m1 ++ momentQubits m2 := by
  induction m1 with
  | nil => simp [momentQubits]
  | cons op m ih => simp [momentQubits, ih]

lemma momentQubits_invMoment (M : Moment) :
    momentQubits (invMoment M) = momentQubits M := by
  induction M with
  | nil => rfl
  | cons op m ih =>
    show (inverseOp op).qubits ++ momentQubits (invMoment m) = op.qubits ++ momentQubits m
    rw [inverseOp_qubits, ih]

lemma mem_momentQubits {M : Moment} {q : Nat} :
    q ∈ momentQubits M ↔ ∃ op ∈ M, q ∈ op.qubits := by
  induction M with
  | nil => simp [momentQubits]
  | cons op m ih =>
    simp only [momentQubits, List.mem_append, ih, List.mem_cons]
    constructor
    · rintro (h | ⟨o, ho, hqm⟩)
      · exact ⟨op, Or.inl rfl, h⟩
      · exact ⟨o, Or.inr ho, hqm⟩
    · rintro ⟨o, (rfl | ho), hqm⟩
      · exact Or.inl hqm
      · exact Or.inr ⟨o, ho, hqm⟩

lemma conflicts_iff {m : Moment} {op : Operation} :
    conflicts m op = true ↔ ∃ q ∈ op.qubits, q ∈ momentQubits m := by
  simp [conflicts, List.any_eq_true, List.elem_iff]

lemma conflicts_eq_false {m : Moment} {op : Operation} :
    conflicts m op = false ↔ ∀ q ∈ op.qubits, q ∉ momentQubits m := by
  rw [← Bool.not_eq_true, conflicts_iff]; push_neg; rfl

lemma conflicts_invMoment (M : Moment) (op : Operation) :
    conflicts (invMoment M) op = conflicts M op := by
  simp [conflicts, momentQubits_invMoment]

lemma conflicts_op_inverse (m : Moment) (op : Operation) :
    conflicts m (inverseOp op) = conflicts m op := by
  simp [conflicts, inverseOp_qubits]

lemma conflicts_of_mem {M : Moment} {op : Operation}
    (hmem : op ∈ M) (hq : op.qubits ≠ []) : conflicts M op = true := by
  rw [conflicts_iff]
  rcases hql : op.qubits with _ | ⟨q, qs⟩
  · exact absurd hql hq
  · exact ⟨q, by simp [hql], mem_momentQubits.2 ⟨op, hmem, by simp [hql]⟩⟩

lemma conflicts_append (m1 m2 : Moment) (op : Operation) :
    conflicts (m1 ++ m2) op = (conflicts m1 op || conflicts m2 op) := by
  cases h1 : conflicts m1 op with
  | true =>
    rw [conflicts_iff] at h1
    rcases h1 with ⟨q, hq, hmem⟩
    simp only [Bool.true_or]
    rw [conflicts_iff]
    exact ⟨q, hq, by simp [momentQubits_append, hmem]⟩
  | false =>
    cases h2 : conflicts m2 op with
    | true =>
      rw [conflicts_iff] at h2
      rcases h2 with ⟨q, hq, hmem⟩
      simp only [Bool.false_or]
      rw [conflicts_iff]
      exact ⟨q, hq, by simp [momentQubits_append, hmem]⟩
    | false =>
      simp only [Bool.false_or]
      rw [conflicts_eq_false] at h1 h2 ⊢
      intro q hq
      rw [momentQubits_append]
      simp only [List.mem_append, not_or]
      exact ⟨h1 q hq, h2 q hq⟩

lemma lastConflict_append (xs ys : Circuit) (op : Operation) :
    lastConflict (xs ++ ys) op =
      match lastConflict ys op with
      | some i => some (xs.length + i)
      | none => lastConflict xs op := by
  induction xs with
  | nil =>
    simp only [List.nil_append, List.length_nil]
    cases h : lastConflict ys op <;> simp [h, lastConflict]
  | cons m ms ih =>
    simp only [List.cons_append, lastConflict, List.append_eq]
    rw [ih]
    cases h : lastConflict ys op with
    | some i =>
      simp only [List.length_cons, Option.some.injEq]
      omega
    | none => rfl

lemma lastConflict_none {L : Circuit} {op : Operation}
    (h : ∀ m ∈ L, conflicts m op = false) : lastConflict L op = none := by
  induction L with
  | nil => rfl
  | cons m ms ih =>
    have hm := h m (by simp)
    have hms : lastConflict ms op = none := ih fun m' hm' => h m' (by simp [hm'])
    simp [lastConflict, hms, hm]

lemma placeAt_append (P L : Circuit) (i : Nat) (op : Operation) :
    placeAt (P ++ L) (P.length + i) op = P ++ placeAt L i op := by
  induction P with
  | nil => simp
  | cons m ms ih =>
    have h : (m :: ms).length + i = (ms.length + i) + 1 := by
      simp only [List.length_cons]; omega
    rw [List.cons_append, h]
    show m :: placeAt (ms ++ L) (ms.length + i) op = m :: (ms ++ placeAt L i op)
    rw [ih]

/-- Core scheduling fact: appending an operation to a circuit ending in a
conflicting moment `B` followed by non-conflicting moments `L` places the
operation into the first moment of `L` (or a fresh one when `L` is empty). -/
lemma appendOp_mergeAfter (P : Circuit) (B : Moment) (L : Circuit) (op : Operation)
    (hB : conflicts B op = true) (hL : ∀ m ∈ L, conflicts m op = false) :
    appendOp (P ++ B :: L) op = P ++ B :: placeAt L 0 op := by
  have hlc : lastConflict (P ++ B :: L) op = some P.length := by
    rw [lastConflict_append]
    have : lastConflict (B :: L) op = some 0 := by
      simp [lastConflict, lastConflict_none hL, hB]
    simp [this]
  have hplace : placeAt (P ++ B :: L) (P.length + 1) op = P ++ B :: placeAt L 0 op := by
    rw [placeAt_append]; rfl
  simp [appendOp, hlc, ← hplace]

lemma foldStep_shape (P : Circuit) (B D I : Moment) (op : Operation)
    (hB : conflicts B op = true)
    (hD : conflicts D op = false) (hI : conflicts I op = false)
    (hq : op.qubits ≠ []) :
    foldStep (P ++ [B, D, I]) op = P ++ [B, D ++ [op], I ++ [inverseOp op]] := by
  unfold foldStep
  have h1 : appendOp (P ++ [B, D, I]) op = P ++ [B, D ++ [op], I] := by
    have := appendOp_mergeAfter P B [D, I] op hB
      (by intro m hm; simp only [List.mem_cons, List.not_mem_nil, or_false] at hm
          rcases hm with rfl | rfl <;> assumption)
    simpa [placeAt] using this
  rw [h1]
  have hDop : conflicts (D ++ [op]) (inverseOp op) = true := by
    rw [conflicts_op_inverse, conflicts_append]
    have : conflicts [op] op = true := conflicts_of_mem (by simp) hq
    simp [this]
  have hIinv : conflicts I (inverseOp op) = false := by rw [conflicts_op_inverse]; exact hI
  have := appendOp_mergeAfter (P ++ [B]) (D ++ [op]) [I] (inverseOp op) hDop
    (by intro m hm; simp only [List.mem_cons, List.not_mem_nil, or_false] at hm
        subst hm; exact hIinv)
  simpa [placeAt] using this

lemma foldStep_first (P : Circuit) (B : Moment) (op : Operation)
    (hB : conflicts B op = true) (hq : op.qubits ≠ []) :
    foldStep (P ++ [B]) op = P ++ [B, [op], [inverseOp op]] := by
  unfold foldStep
  have h1 : appendOp (P ++ [B]) op = P ++ [B, [op]] := by
    have := appendOp_mergeAfter P B [] op hB (by simp)
    simpa [placeAt] using this
  rw [h1]
  have hOp : conflicts [op] (inverseOp op) = true := by
    rw [conflicts_op_inverse]; exact conflicts_of_mem (by simp) hq
  have := appendOp_mergeAfter (P ++ [B]) [op] [] (inverseOp op) hOp (by simp)
  simpa [placeAt] using this

lemma conflicts_of_disjoint {D : Moment} {op : Operation}
    (h : ∀ op2 ∈ D, opDisjoint op2 op) : conflicts D op = false := by
  rw [conflicts_eq_false]
  intro q hq hmem
  rcases mem_momentQubits.1 hmem with ⟨op2, hop2, hq2⟩
  exact h op2 hop2 q hq2 hq

lemma foldOnce_aux (rest : List Operation) : ∀ (done : List Operation) (P : Circuit) (B : Moment),
    (∀ op ∈ rest, conflicts B op = true) →
    (∀ op ∈ rest, ∀ op2 ∈ done, opDisjoint op2 op) →
    rest.Pairwise opDisjoint →
    (∀ op ∈ rest, op.qubits ≠ []) →
    rest.foldl foldStep (P ++ [B, done, invMoment done])
      = P ++ [B, done ++ rest, invMoment (done ++ rest)] := by
  induction rest with
  | nil => intro done P B _ _ _ _; simp
  | cons op rest ih =>
    intro done P B hB hdd hpw hq
    have hDone : conflicts done op = false :=
      conflicts_of_disjoint (fun op2 h2 => hdd op (by simp) op2 h2)
    have hInv : conflicts (invMoment done) op = false := by
      rw [conflicts_invMoment]; exact hDone
    have hstep : foldStep (P ++ [B, done, invMoment done]) op
        = P ++ [B, done ++ [op], invMoment done ++ [inverseOp op]] :=
      foldStep_shape P B done (invMoment done) op (hB op (by simp)) hDone hInv (hq op (by simp))
    have hinv2 : invMoment done ++ [inverseOp op] = invMoment (done ++ [op]) := by
      simp [invMoment]
    rw [List.foldl_cons, hstep, hinv2,
      ih (done ++ [op]) P B (fun o ho => hB o (by simp [ho]))
        (by
          intro o ho op2 hop2
          rcases List.mem_append.1 hop2 with h | h
          · exact hdd o (by simp [ho]) op2 h
          · have : op2 = op := by simpa using h
            subst this
            exact (List.pairwise_cons.1 hpw).1 o ho)
        ((List.pairwise_cons.1 hpw).2)
        (fun o ho => hq o (by simp [ho]))]
    simp

/-- One full pass of the fold's inner loop over a disjoint nonempty moment
appends a copy of the moment followed by a moment of its inverses. -/
lemma foldOnce_eq (M : Moment) (P : Circuit) (B : Moment)
    (hB : ∀ op ∈ M, conflicts B op = true)
    (hpw : M.Pairwise opDisjoint)
    (hq : ∀ op ∈ M, op.qubits ≠ [])
    (hne : M ≠ []) :
    M.foldl foldStep (P ++ [B]) = P ++ [B, M, invMoment M] := by
  rcases M with _ | ⟨op, rest⟩
  · exact absurd rfl hne
  rw [List.foldl_cons]
  have h1 : foldStep (P ++ [B]) op = P ++ [B, [op], [inverseOp op]] :=
    foldStep_first P B op (hB op (by simp)) (hq op (by simp))
  rw [h1]
  have h2 := foldOnce_aux rest [op] P B
    (fun o ho => hB o (by simp [ho]))
    (by
      intro o ho op2 hop2
      have : op2 = op := by simpa using hop2
      subst this
      exact (List.pairwise_cons.1 hpw).1 o ho)
    ((List.pairwise_cons.1 hpw).2)
    (fun o ho => hq o (by simp [ho]))
  simpa [invMoment] using h2

lemma repBlock_concat (M : Moment) (n : Nat) :
    repBlock M n ++ [M, invMoment M] = repBlock M (n + 1) := by
  induction n with
  | zero => rfl
  | succ k ih =>
    show M :: invMoment M :: (repBlock M k ++ [M, invMoment M]) = repBlock M (k + 2)
    rw [ih]; rfl

/-- The fold's inner double loop over one non-measurement moment appends
exactly `n` (moment, inverse moment) pairs after the moment itself. -/
lemma scaleMoment_eq (M : Moment) (hM : momentOk M) (acc : Circuit) (n : Nat) :
    (List.range n).foldl (fun acc2 _ => M.foldl foldStep acc2) (appendMoment acc M)
      = acc ++ M :: repBlock M n := by
  obtain ⟨hne, hpw, hq⟩ := hM
  have hBM : ∀ op ∈ M, conflicts M op = true :=
    fun op h => conflicts_of_mem h (hq op h)
  have hBinv : ∀ op ∈ M, conflicts (invMoment M) op = true :=
    fun op h => by rw [conflicts_invMoment]; exact hBM op h
  induction n with
  | zero => simp [appendMoment, repBlock]
  | succ k ih =>
    rw [List.range_succ, List.foldl_append, ih, List.foldl_cons, List.foldl_nil]
    cases k with
    | zero =>
      have h := foldOnce_eq M acc M hBM hpw hq hne
      simpa [repBlock] using h
    | succ j =>
      have hshape : acc ++ M :: repBlock M (j + 1)
          = (acc ++ M :: repBlock M j ++ [M]) ++ [invMoment M] := by
        rw [← repBlock_concat]; simp
      rw [hshape]
      rw [foldOnce_eq M (acc ++ M :: repBlock M j ++ [M]) (invMoment M) hBinv hpw hq hne]
      rw [← repBlock_concat, ← repBlock_concat]
      simp

/-- Unrolling the outer loop of `scale_noise`. -/
lemma scale_loop (n : Nat) (c : Circuit) (acc : Circuit) (hc : circuitOk c) :
    c.foldl
      (fun acc M =>
        if M.any isMeasOp then appendMoment acc M
        else (List.range n).foldl (fun acc2 _ => M.foldl foldStep acc2) (appendMoment acc M))
      acc
      = acc ++ foldSpec n c := by
  induction c generalizing acc with
  | nil => simp [foldSpec]
  | cons M ms ih =>
    rw [List.foldl_cons]
    by_cases hM : M.any isMeasOp = true
    · rw [if_pos hM, ih _ (fun M2 h2 => hc M2 (by simp [h2]))]
      simp [appendMoment, foldSpec, foldBlock, hM]
    · have hMf : M.any isMeasOp = false := by
        simpa using hM
      rw [if_neg hM,
        scaleMoment_eq M (hc M (by simp) hMf) acc n,
        ih _ (fun M2 h2 => hc M2 (by simp [h2]))]
      simp [foldSpec, foldBlock, hMf]

lemma foldBlock_zero (M : Moment) : foldBlock 0 M = [M] := by
  unfold foldBlock repBlock
  split <;> rfl

lemma foldSpec_zero (c : Circuit) : foldSpec 0 c = c := by
  induction c with
  | nil => rfl
  | cons M ms ih => simp [foldSpec, foldBlock_zero, ih]

lemma numFolds_one : numFolds 1 = 0 := by
  norm_num [numFolds, pyInt]

lemma scaleLoop_eq_foldSpec (n : Nat) (c : Circuit) (hok : circuitOk c) :
    scaleLoop n c = foldSpec n c := by
  unfold scaleLoop
  rw [scale_loop n c [] hok]
  simp

/-- Central structure theorem for the fold transform: on any circuit
satisfying the spec's moment invariant, the source's op-level append loop
produces exactly the moment sequence of `foldSpec`. -/
theorem scale_noise_eq_foldSpec (c : Circuit) (s : ℚ) (hok : circuitOk c) :
    scale_noise c s = foldSpec (numFolds s) c := by
  by_cases h1 : s = 1
  · subst h1
    rw [scale_noise, if_pos rfl, numFolds_one, foldSpec_zero]
  · rw [scale_noise, if_neg h1, scaleLoop_eq_foldSpec (numFolds s) c hok]

lemma numFolds_eq_floor (s : ℚ) (hs : 1 ≤ s) :
    numFolds s = (⌊(s - 1) * 2⌋).toNat := by
  have h0 : (0 : ℚ) ≤ (s - 1) * 2 := by nlinarith
  simp [numFolds, pyInt, h0]

/-! ### Claims C1, C3, C4 -/

/-- Claim C1: for every circuit (satisfying the spec's moment invariant)
and every scale factor s ≥ 1, `scale_noise` emits, for each moment
containing no measurement operation, the original moment followed by
`⌊(s − 1) · 2⌋` repetitions of the moment's operations each immediately
followed by their inverses, emits every measurement-containing moment
unchanged and unfolded, and preserves overall moment order — this is
exactly the moment sequence `foldSpec`. -/
theorem scale_noise_fold_structure (c : Circuit) (s : ℚ)
    (hok : circuitOk c) (hs : 1 ≤ s) :
    scale_noise c s = foldSpec (⌊(s - 1) * 2⌋).toNat c := by
  rw [scale_noise_eq_foldSpec c s hok, numFolds_eq_floor s hs]

/-- Witness for C1 on the Bell-pair test circuit at scale factor 2. -/
theorem scale_noise_fold_structure_witness :
    circuitOk create_test_circuit ∧ (1 : ℚ) ≤ 2 ∧
      scale_noise create_test_circuit 2
        = foldSpec (⌊((2 : ℚ) - 1) * 2⌋).toNat create_test_circuit :=
  ⟨by decide, by norm_num,
    scale_noise_fold_structure create_test_circuit 2 (by decide) (by norm_num)⟩

/-- Claim C3: `scale_noise` at scale factor 1.0 is a pure identity — the
returned circuit has the same moment sequence as the input. -/
theorem scale_noise_identity (c : Circuit) : scale_noise c 1 = c := by
  rw [scale_noise, if_pos rfl]

/-- Claim C4 as stated: for every non-measurement moment and every scale
factor s ≥ 1 with s ≠ 1.0, folding the single-moment circuit strictly
increases its operation count. -/
def strictGrowthClaim : Prop :=
  ∀ (M : Moment) (s : ℚ), momentOk M → 1 ≤ s → s ≠ 1 →
    M.any isMeasOp = false → opCount [M] < opCount (scale_noise [M] s)

/-- Counterexample to C4 as stated: at scale factor 1.25 (≥ 1 and ≠ 1.0)
the fold count `int((1.25 − 1) · 2) = 0`, so the X-gate moment passes
through with its operation count unchanged, not strictly increased. -/
theorem strictGrowth_counterexample : ¬ strictGrowthClaim := by
  intro h
  have hlt := h [xOp 0] (5 / 4) (by decide) (by norm_num) (by norm_num) (by decide)
  have hnum : numFolds (5 / 4) = 0 := by
    rw [numFolds_eq_floor (5 / 4) (by norm_num)]
    norm_num
  have heq : scale_noise [[xOp 0]] (5 / 4) = [[xOp 0]] := by
    rw [scale_noise, if_neg (by norm_num), hnum]
    decide
  rw [heq] at hlt
  exact absurd hlt (by decide)

lemma opCount_repBlock (M : Moment) (n : Nat) :
    opCount (repBlock M n) = n * (2 * M.length) := by
  induction n with
  | zero => simp [repBlock, opCount]
  | succ k ih =>
    show opCount (M :: invMoment M :: repBlock M k) = (k + 1) * (2 * M.length)
    simp only [opCount, List.map_cons, List.sum_cons, invMoment, List.length_map] at ih ⊢
    rw [Nat.succ_mul]
    omega

lemma numFolds_pos_iff (s : ℚ) (hs : 1 ≤ s) : 1 ≤ numFolds s ↔ 3 / 2 ≤ s := by
  rw [numFolds_eq_floor s hs]
  have h2 : (1 : ℕ) ≤ (⌊(s - 1) * 2⌋).toNat ↔ (1 : ℤ) ≤ ⌊(s - 1) * 2⌋ := by omega
  rw [h2, Int.le_floor]
  push_cast
  constructor
  · intro h; linarith
  · intro h; linarith

/-- Claim C4 amended: for a scale factor s ≥ 1, folding strictly increases
the operation count of a non-measurement moment exactly when
`int((s − 1) · 2) ≥ 1`, i.e. when s ≥ 1.5; for 1 ≤ s < 1.5 (not only at
s = 1.0) the moment passes through structurally unchanged; and every
measurement-containing moment is emitted byte-for-byte unchanged. -/
theorem per_moment_growth (M : Moment) (s : ℚ)
    (hok : circuitOk [M]) (hs : 1 ≤ s) :
    (M.any isMeasOp = false →
      ((3 / 2 ≤ s → opCount [M] < opCount (scale_noise [M] s)) ∧
       (s < 3 / 2 → scale_noise [M] s = [M]))) ∧
    (M.any isMeasOp = true → scale_noise [M] s = [M]) := by
  have hstruct := scale_noise_eq_foldSpec [M] s hok
  constructor
  · intro hMf
    have hMok : momentOk M := hok M (by simp) hMf
    have hMne : M.length ≠ 0 := by
      rcases hMok with ⟨hne, -, -⟩
      simpa [List.length_eq_zero] using hne
    constructor
    · intro h32
      rw [hstruct]
      have hn : 1 ≤ numFolds s := (numFolds_pos_iff s hs).2 h32
      show opCount [M] < opCount (foldSpec (numFolds s) [M])
      have : foldSpec (numFolds s) [M] = M :: repBlock M (numFolds s) := by
        simp [foldSpec, foldBlock, hMf]
      rw [this]
      have hrb := opCount_repBlock M (numFolds s)
      simp only [opCount, List.map_cons, List.sum_cons, List.map_nil, List.sum_nil] at hrb ⊢
      have : 1 * (2 * M.length) ≤ numFolds s * (2 * M.length) :=
        Nat.mul_le_mul_right _ hn
      omega
    · intro h32
      have hn : numFolds s = 0 := by
        rcases Nat.eq_zero_or_pos (numFolds s) with h | h
        · exact h
        · exact absurd ((numFolds_pos_iff s hs).1 h) (by linarith)
      rw [hstruct, hn]
      exact foldSpec_zero [M]
  · intro hMt
    rw [hstruct]
    simp [foldSpec, foldBlock, hMt]

/-- Witness for the amended C4: at scale 2 the X-gate moment's operation
count strictly grows, and a measurement moment is unchanged. -/
theorem per_moment_growth_witness :
    opCount [[xOp 0]] < opCount (scale_noise [[xOp 0]] 2) ∧
      scale_noise [[measOp 0 "m"]] 2 = [[measOp 0 "m"]] :=
  ⟨((per_moment_growth [xOp 0] 2 (by decide) (by norm_num)).1 (by decide)).1 (by norm_num),
   (per_moment_growth [measOp 0 "m"] 2 (by decide) (by norm_num)).2 (by decide)⟩

/-! ### Zero-noise extrapolation: the degree-1 least-squares fit (C2) -/

/-- Modelled from the spec: the degree-1 fit that
`np.polyfit(noise_scales, expectation_values, deg=1)` performs (external
library code; spec §4.6 specifies ordinary least squares minimizing
squared vertical residuals), written in closed form via the normal
equations, returned as (slope, intercept).  The singular case (all
abscissae equal) is mapped to (0, 0); none of the claims touch it. -/
def polyfit1 (xs ys : List ℚ) : ℚ × ℚ :=
  if (xs.length : ℚ) * (xs.map fun x => x * x).sum - xs.sum * xs.sum = 0 then (0, 0)
  else
    (((xs.length : ℚ) * (List.zipWith (· * ·) xs ys).sum - xs.sum * ys.sum)
        / ((xs.length : ℚ) * (xs.map fun x => x * x).sum - xs.sum * xs.sum),
     ((xs.map fun x => x * x).sum * ys.sum - xs.sum * (List.zipWith (· * ·) xs ys).sum)
        / ((xs.length : ℚ) * (xs.map fun x => x * x).sum - xs.sum * xs.sum))

/-- `zero_noise_extrapolation` of `quantum_error_mitigation.py` lines
143–159: fit `y = m·x + b` and return the y-intercept `coeffs[1]`, the
value of the fitted line at scale 0. -/
def zero_noise_extrapolation (noise_scales expectation_values : List ℚ) : ℚ :=
  (polyfit1 noise_scales expectation_values).2

lemma sum_map_line (m b : ℚ) (xs : List ℚ) :
    (xs.map fun x => m * x + b).sum = m * xs.sum + b * xs.length := by
  induction xs with
  | nil => simp
  | cons x l ih =>
    simp only [List.map_cons, List.sum_cons, List.length_cons, ih]
    push_cast
    ring

lemma sum_zip_line (m b : ℚ) (xs : List ℚ) :
    (List.zipWith (· * ·) xs (xs.map fun x => m * x + b)).sum
      = m * (xs.map fun x => x * x).sum + b * xs.sum := by
  induction xs with
  | nil => simp
  | cons x l ih =>
    simp only [List.map_cons, List.zipWith_cons_cons, List.sum_cons, ih]
    ring

/-- Sum of squared pairwise differences, the quantity that witnesses
non-singularity of the degree-1 normal system. -/
def pairSq : List ℚ → ℚ
  | [] => 0
  | x :: l => (l.map fun y => (x - y) * (x - y)).sum + pairSq l

lemma sum_map_sub_sq (x : ℚ) (l : List ℚ) :
    (l.map fun y => (x - y) * (x - y)).sum
      = (l.length : ℚ) * (x * x) - 2 * x * l.sum + (l.map fun y => y * y).sum := by
  induction l with
  | nil => simp
  | cons y l ih =>
    simp only [List.map_cons, List.sum_cons, List.length_cons, ih]
    push_cast
    ring

lemma pairSq_eq (xs : List ℚ) :
    (xs.length : ℚ) * (xs.map fun x => x * x).sum - xs.sum * xs.sum = pairSq xs := by
  induction xs with
  | nil => simp [pairSq]
  | cons x l ih =>
    simp only [pairSq, List.map_cons, List.sum_cons, List.length_cons]
    rw [sum_map_sub_sq, ← ih]
    push_cast
    ring

lemma pairSq_nonneg (xs : List ℚ) : 0 ≤ pairSq xs := by
  induction xs with
  | nil => exact le_refl 0
  | cons x l ih =>
    have h1 : 0 ≤ (l.map fun y => (x - y) * (x - y)).sum := by
      apply List.sum_nonneg
      intro a ha
      simp only [List.mem_map] at ha
      obtain ⟨y, -, rfl⟩ := ha
      exact mul_self_nonneg _
    show 0 ≤ (l.map fun y => (x - y) * (x - y)).sum + pairSq l
    linarith

lemma pairSq_pos {xs : List ℚ} (h : ∃ x1 ∈ xs, ∃ x2 ∈ xs, x1 ≠ x2) :
    0 < pairSq xs := by
  induction xs with
  | nil => simp at h
  | cons x l ih =>
    obtain ⟨a, ha, c, hc, hac⟩ := h
    have hmapnn : 0 ≤ (l.map fun y => (x - y) * (x - y)).sum := by
      apply List.sum_nonneg
      intro u hu
      simp only [List.mem_map] at hu
      obtain ⟨y, -, rfl⟩ := hu
      exact mul_self_nonneg _
    have hterm : ∀ c2 ∈ l, c2 ≠ x → 0 < (l.map fun y => (x - y) * (x - y)).sum := by
      intro c2 hc2 hne
      have hpos : 0 < (x - c2) * (x - c2) :=
        mul_self_pos.2 (sub_ne_zero.2 (Ne.symm hne))
      have hmem : (x - c2) * (x - c2) ∈ l.map fun y => (x - y) * (x - y) :=
        List.mem_map_of_mem _ hc2
      have hle : (x - c2) * (x - c2) ≤ (l.map fun y => (x - y) * (x - y)).sum := by
        apply List.single_le_sum _ _ hmem
        intro u hu
        simp only [List.mem_map] at hu
        obtain ⟨y, -, rfl⟩ := hu
        exact mul_self_nonneg _
      linarith
    have hps : pairSq (x :: l) = (l.map fun y => (x - y) * (x - y)).sum + pairSq l := rfl
    rcases List.mem_cons.1 ha with rfl | hal
    · rcases List.mem_cons.1 hc with rfl | hcl
      · exact absurd rfl hac
      · have := hterm c hcl (fun h2 => hac h2.symm)
        have := pairSq_nonneg l
        rw [hps]
        linarith
    · rcases List.mem_cons.1 hc with rfl | hcl
      · have := hterm a hal hac
        have := pairSq_nonneg l
        rw [hps]
        linarith
      · have := ih ⟨a, hal, c, hcl, hac⟩
        have := hmapnn
        rw [hps]
        linarith

/-- Claim C2: on expectation values lying exactly on the line
`y = m·x + b`, the degree-1 least-squares fit through the (scale,
expectation) pairs evaluated at scale 0 recovers the intercept `b`
exactly (hence within any floating tolerance), provided at least two
scale factors are distinct; the fit is a pure function of its inputs, so
it is deterministic. -/
theorem zero_noise_extrapolation_exact (xs : List ℚ) (m b : ℚ)
    (h2 : ∃ x1 ∈ xs, ∃ x2 ∈ xs, x1 ≠ x2) :
    zero_noise_extrapolation xs (xs.map fun x => m * x + b) = b := by
  have hd : (xs.length : ℚ) * (xs.map fun x => x * x).sum - xs.sum * xs.sum ≠ 0 := by
    rw [pairSq_eq]
    exact ne_of_gt (pairSq_pos h2)
  rw [zero_noise_extrapolation, polyfit1, if_neg hd]
  rw [sum_zip_line, sum_map_line]
  field_simp
  ring

/-- Witness for C2: scales [1, 2] on the line y = 3x + 7 recover 7. -/
theorem zero_noise_extrapolation_exact_witness :
    (∃ x1 ∈ ([1, 2] : List ℚ), ∃ x2 ∈ ([1, 2] : List ℚ), x1 ≠ x2) ∧
      zero_noise_extrapolation [1, 2] (([1, 2] : List ℚ).map fun x => 3 * x + 7) = 7 := by
  have h : ∃ x1 ∈ ([1, 2] : List ℚ), ∃ x2 ∈ ([1, 2] : List ℚ), x1 ≠ x2 :=
    ⟨1, by simp, 2, by simp, by norm_num⟩
  exact ⟨h, zero_noise_extrapolation_exact [1, 2] 3 7 h⟩

/-! ### The spec's simulation core (spec §4.1, §4.4, §6) -/

/-- The spec's §7 error kinds. -/
inductive CoreError where
  | DimensionError : CoreError
  | QubitIndexError : CoreError
  | UnknownGateError : CoreError
  | InvalidArgument : CoreError
  | InsufficientDataError : CoreError
  | NumericalInstabilityError : CoreError
deriving DecidableEq, Repr

instance {ε α : Type} [DecidableEq ε] [DecidableEq α] : DecidableEq (Except ε α)
  | .error e, .error f => decidable_of_iff (e = f) (by simp)
  | .ok u, .ok v => decidable_of_iff (u = v) (by simp)
  | .error _, .ok _ => isFalse (by simp)
  | .ok _, .error _ => isFalse (by simp)

/-- Modelled from the spec: the Qubit Register of §4.1 (pure-vector back
end).  All gates the repository's circuits route through the simulator
(H, X, CNOT, CCNOT) have real amplitudes that are integer multiples of
(1/√2)^scaleExp, so the state is an integer vector `amps` of length 2^n
(bit q of the basis index = value of qubit q) plus the normalisation
exponent `scaleExp`; the probability of basis state j is
amps[j]^2 / 2^scaleExp. -/
structure VecState where
  n : Nat
  scaleExp : Nat
  amps : List ℤ
deriving DecidableEq, Repr

/-- `initialize(n)` of spec §4.1: the all-zero basis state. -/
def initState (n : Nat) : VecState :=
  ⟨n, 0, (List.range (2 ^ n)).map fun j => if j = 0 then 1 else 0⟩

def ampAt (st : VecState) (j : Nat) : ℤ := st.amps.getD j 0

def flipBit (j q : Nat) : Nat := j ^^^ 2 ^ q

/-- Modelled from the spec: `apply_unitary` of §4.1 on the exactly
representable part of the catalog.  Out-of-range qubit operands fail with
`QubitIndexError`, duplicated operands or arity mismatches with
`DimensionError` (§4.1, §7).  The parametrized Z-rotation and the
depolarizing channel have no exact real-dyadic action in this vector back
end and are rejected with `UnknownGateError`; no claim routes them
through the simulator. -/
def applyUnitary (st : VecState) (g : Gate) (qs : List Nat) :
    Except CoreError VecState :=
  match g, qs with
  | Gate.X, [q] =>
    if q < st.n then
      .ok ⟨st.n, st.scaleExp, (List.range (2 ^ st.n)).map fun j => ampAt st (flipBit j q)⟩
    else .error CoreError.QubitIndexError
  | Gate.H, [q] =>
    if q < st.n then
      .ok ⟨st.n, st.scaleExp + 1, (List.range (2 ^ st.n)).map fun j =>
        if j.testBit q then ampAt st (flipBit j q) - ampAt st j
        else ampAt st j + ampAt st (flipBit j q)⟩
    else .error CoreError.QubitIndexError
  | Gate.CNOT, [qc, qt] =>
    if qc < st.n ∧ qt < st.n then
      if qc ≠ qt then
        .ok ⟨st.n, st.scaleExp, (List.range (2 ^ st.n)).map fun j =>
          if j.testBit qc then ampAt st (flipBit j qt) else ampAt st j⟩
      else .error CoreError.DimensionError
    else .error CoreError.QubitIndexError
  | Gate.CCNOT, [q1, q2, qt] =>
    if q1 < st.n ∧ q2 < st.n ∧ qt < st.n then
      if q1 ≠ q2 ∧ q1 ≠ qt ∧ q2 ≠ qt then
        .ok ⟨st.n, st.scaleExp, (List.range (2 ^ st.n)).map fun j =>
          if j.testBit q1 && j.testBit q2 then ampAt st (flipBit j qt) else ampAt st j⟩
      else .error CoreError.DimensionError
    else .error CoreError.QubitIndexError
  | Gate.Rz _, _ => .error CoreError.UnknownGateError
  | Gate.depolarize _, _ => .error CoreError.UnknownGateError
  | _, _ => .error CoreError.DimensionError

/-- Modelled from the spec: applying a circuit's non-measurement
operations in moment order (§4.4 APPLY); measurement operations are
deferred to the sampling stage — every measurement in the repository's
circuits is terminal on its qubits. -/
def runGates (st : VecState) : List Operation → Except CoreError VecState
  | [] => .ok st
  | op :: ops =>
    if isMeasOp op then runGates st ops
    else
      match applyUnitary st op.gate op.qubits with
      | .error e => .error e
      | .ok st2 => runGates st2 ops

/-- All operations of a circuit in moment order. -/
def circuitOps (c : Circuit) : List Operation := c.foldr (fun M acc => M ++ acc) []

/-- Qubits of the measurement operations, in order of declaration. -/
def measuredQubits (c : Circuit) : List Nat :=
  (circuitOps c).foldr (fun op acc => if isMeasOp op then op.qubits ++ acc else acc) []

/-- Number of qubits: one past the largest referenced label. -/
def numQubits (c : Circuit) : Nat :=
  (circuitOps c).foldr (fun op acc => op.qubits.foldr (fun q m2 => max (q + 1) m2) acc) 0

/-- Integer numerator of the probability of reading `bits` on qubits
`qs`: the sum of squared amplitudes over the consistent basis states. -/
def probNum (st : VecState) (qs : List Nat) (bits : List Bool) : ℤ :=
  ((List.range (2 ^ st.n)).map fun j =>
    if (qs.zip bits).all (fun p => j.testBit p.1 == p.2) then ampAt st j * ampAt st j
    else 0).sum

/-- Probability of reading `bits` on qubits `qs` in state `st`:
`probNum / 2^scaleExp` (written with `mkRat`, see `probOf_eq_div`). -/
def probOf (st : VecState) (qs : List Nat) (bits : List Bool) : ℚ :=
  mkRat (probNum st qs bits) (2 ^ st.scaleExp)

lemma probOf_eq_div (st : VecState) (qs : List Nat) (bits : List Bool) :
    probOf st qs bits = (probNum st qs bits : ℚ) / 2 ^ st.scaleExp := by
  rw [probOf, Rat.mkRat_eq_div]
  push_cast
  ring

/-- All outcome tuples of `k` measured qubits, most significant first. -/
def allBitstrings : Nat → List (List Bool)
  | 0 => [[]]
  | k + 1 => (allBitstrings k).map (List.cons false) ++ (allBitstrings k).map (List.cons true)

/-- Modelled from the spec: `Simulator.exact_distribution(circuit)` of §6,
the convenience exact-probability query over the declared measurements;
valid for circuits whose measurements are terminal on their qubits, which
holds for every circuit the repository builds. -/
def exact_distribution (c : Circuit) : Except CoreError (List (List Bool × ℚ)) :=
  match runGates (initState (numQubits c)) (circuitOps c) with
  | .error e => .error e
  | .ok st =>
    .ok ((allBitstrings (measuredQubits c).length).map
      fun bs => (bs, probOf st (measuredQubits c) bs))

/-- Modelled from the spec: one outcome draw from a distribution by
inverse-CDF walk with a uniform deviate `u ∈ [0, 1)` (§4.1 `sample`). -/
def sampleFrom : List (List Bool × ℚ) → ℚ → List Bool
  | [], _ => []
  | [(o, _)], _ => o
  | (o, p) :: rest, u => if u < p then o else sampleFrom rest (u - p)

/-- Modelled from the spec: `Simulator.run(circuit, repetitions)` of §4.4
and §6 — `repetitions` must be ≥ 1, else the run fails with
`InvalidArgument`; otherwise each repetition independently samples the
measured qubits, driven by the seedable random stream `rng` (§5, §9). -/
def Simulator.run (rng : Nat → ℚ) (c : Circuit) (repetitions : Nat) :
    Except CoreError (List (List Bool)) :=
  if repetitions < 1 then .error CoreError.InvalidArgument
  else
    match exact_distribution c with
    | .error e => .error e
    | .ok d => .ok ((List.range repetitions).map fun r => sampleFrom d (rng r))

/-- Modelled from the spec: `ZNEEstimator.estimate` of §4.6 and §6 — run
the Noise Scaler and the Simulator per scale factor, reduce each run to
one expectation value with the caller-supplied reduction, and extrapolate
the degree-1 fit to scale 0.  Requires at least 2 distinct scale factors,
else fails with `InsufficientDataError`. -/
def ZNEEstimator.estimate (rng : Nat → ℚ) (c : Circuit) (scale_factors : List ℚ)
    (repetitions : Nat) (reduce : List (List Bool) → ℚ) : Except CoreError ℚ :=
  if scale_factors.dedup.length < 2 then .error CoreError.InsufficientDataError
  else
    match scale_factors.mapM
        (fun s => Except.map reduce (Simulator.run rng (scale_noise c s) repetitions)) with
    | .error e => .error e
    | .ok evs => .ok (zero_noise_extrapolation scale_factors evs)

/-! ### Claims C5 and C6: input validation -/

/-- Claim C5: for every circuit, repetition count, random stream and
reduction, calling the ZNE estimator with fewer than 2 distinct scale
factors fails with `InsufficientDataError`. -/
theorem estimate_insufficient_data (rng : Nat → ℚ) (c : Circuit)
    (scale_factors : List ℚ) (repetitions : Nat) (reduce : List (List Bool) → ℚ)
    (h : scale_factors.dedup.length < 2) :
    ZNEEstimator.estimate rng c scale_factors repetitions reduce
      = .error CoreError.InsufficientDataError := by
  rw [ZNEEstimator.estimate, if_pos h]

/-- Witness for C5 with the single-element scale list [1.0]. -/
theorem estimate_insufficient_data_witness :
    ([(1 : ℚ)].dedup.length < 2) ∧
      ZNEEstimator.estimate (fun _ => 0) create_test_circuit [(1 : ℚ)] 1000 (fun _ => 0)
        = .error CoreError.InsufficientDataError := by
  have h : ([(1 : ℚ)].dedup).length < 2 := by simp
  exact ⟨h, estimate_insufficient_data _ _ _ _ _ h⟩

lemma applyUnitary_ne_invalidArgument (st : VecState) (g : Gate) (qs : List Nat) :
    applyUnitary st g qs ≠ .error CoreError.InvalidArgument := by
  unfold applyUnitary
  split <;> (try split) <;> (try split) <;> simp

lemma runGates_ne_invalidArgument (ops : List Operation) :
    ∀ st, runGates st ops ≠ .error CoreError.InvalidArgument := by
  induction ops with
  | nil => intro st; simp [runGates]
  | cons op ops ih =>
    intro st
    unfold runGates
    split
    · exact ih st
    · cases h : applyUnitary st op.gate op.qubits with
      | error e =>
        have hne := applyUnitary_ne_invalidArgument st op.gate op.qubits
        rw [h] at hne
        simpa using hne
      | ok st2 => simpa using ih st2

lemma exact_distribution_ne_invalidArgument (c : Circuit) :
    exact_distribution c ≠ .error CoreError.InvalidArgument := by
  unfold exact_distribution
  cases h : runGates (initState (numQubits c)) (circuitOps c) with
  | error e =>
    have hne := runGates_ne_invalidArgument (circuitOps c) (initState (numQubits c))
    rw [h] at hne
    simpa using hne
  | ok st => simp

/-- Claim C6: running the simulator with a repetition count below 1 fails
with `InvalidArgument`, and a run with repetitions ≥ 1 never raises this
error. -/
theorem run_repetitions_validation (rng : Nat → ℚ) (c : Circuit) (repetitions : Nat) :
    (repetitions < 1 →
      Simulator.run rng c repetitions = .error CoreError.InvalidArgument) ∧
    (1 ≤ repetitions →
      Simulator.run rng c repetitions ≠ .error CoreError.InvalidArgument) := by
  constructor
  · intro h
    rw [Simulator.run, if_pos h]
  · intro h
    rw [Simulator.run, if_neg (by omega)]
    cases hd : exact_distribution c with
    | error e =>
      have hne := exact_distribution_ne_invalidArgument c
      rw [hd] at hne
      simpa using hne
    | ok d => simp

/-- Witness for C6: repetitions 0 rejected, repetitions 3 not rejected. -/
theorem run_repetitions_validation_witness :
    Simulator.run (fun _ => 0) create_test_circuit 0 = .error CoreError.InvalidArgument ∧
      Simulator.run (fun _ => 0) create_test_circuit 3 ≠ .error CoreError.InvalidArgument :=
  ⟨(run_repetitions_validation (fun _ => 0) create_test_circuit 0).1 (by norm_num),
   (run_repetitions_validation (fun _ => 0) create_test_circuit 3).2 (by norm_num)⟩

/-! ### The half adder of `quantum_addition.py` -/

/-- `quantum_half_adder` of `src/Cirq/quantum_addition.py` lines 8–37,
with qubits a, b, sum, carry labelled 0, 1, 2, 3: two CNOTs onto the sum
qubit, a CCNOT onto the carry qubit, then measurement of sum and carry,
assembled through the library's append scheduling. -/
def quantum_half_adder : Circuit :=
  [cnotOp 0 2, cnotOp 1 2, ccnotOp 0 1 3, measOp 2 "sum", measOp 3 "carry"].foldl appendOp []

/-- The circuit `add_two_bits` of `quantum_addition.py` lines 40–72 runs:
X-gate preparation of the input bits concatenated (cirq `+`, spec §4.3:
moment sequences in order) with the half-adder circuit. -/
def add_two_bits_circuit (bit_a bit_b : Bool) : Circuit :=
  ((if bit_a then [xOp 0] else []) ++ (if bit_b then [xOp 1] else [])).foldl appendOp []
    ++ quantum_half_adder

/-! ### One BB84 round of `quantum_crypto_bb84.py` -/

/-- One round of the BB84 loop, `src/Cirq/quantum_crypto_bb84.py` lines
19–36: Alice prepares qubit 0 in her basis (X when her bit is 1, then H
when she uses the X-basis), Bob applies H when he measures in the
X-basis, and the qubit is measured under key "m". -/
def bb84_round_circuit (aliceBit aliceBase bobBase : Bool) : Circuit :=
  let c1 :=
    if aliceBase = false then
      (if aliceBit then appendOp [] (xOp 0) else [])
    else
      appendOp (if aliceBit then appendOp [] (xOp 0) else []) (hOp 0)
  let c2 := if bobBase then appendOp c1 (hOp 0) else c1
  appendOp c2 (measOp 0 "m")

/-! ### Claims C7, C8, C10: exact behaviour of the concrete circuits -/

/-- Claim C8: the Bell-pair circuit (H then CNOT, both qubits measured)
has exact outcome distribution {(0,0): 0.5, (1,1): 0.5}, with zero
probability mass on (0,1) and (1,0). -/
theorem bell_exact_distribution :
    exact_distribution create_test_circuit
      = .ok [([false, false], 1 / 2), ([false, true], 0),
             ([true, false], 0), ([true, true], 1 / 2)] := by
  rw [show exact_distribution create_test_circuit
      = .ok [([false, false], mkRat 1 2), ([false, true], mkRat 0 1),
             ([true, false], mkRat 0 1), ([true, true], mkRat 1 2)] from by decide]
  norm_num [Rat.mkRat_eq_div]

/-- Claim C7: for every pair of input bits prepared with X gates, the
half-adder circuit yields sum = a XOR b and carry = a AND b with
probability 1 (hence deterministically in a single repetition): the
Toffoli target is 1 exactly when both controls are. -/
theorem add_two_bits_truth_table (a b : Bool) :
    exact_distribution (add_two_bits_circuit a b)
      = .ok ((allBitstrings 2).map
          fun bs => (bs, if bs = [xor a b, a && b] then 1 else 0)) := by
  cases a <;> cases b
  · rw [show exact_distribution (add_two_bits_circuit false false)
        = .ok [([false, false], mkRat 1 1), ([false, true], mkRat 0 1),
               ([true, false], mkRat 0 1), ([true, true], mkRat 0 1)] from by decide]
    norm_num [allBitstrings]
  · rw [show exact_distribution (add_two_bits_circuit false true)
        = .ok [([false, false], mkRat 0 1), ([false, true], mkRat 0 1),
               ([true, false], mkRat 1 1), ([true, true], mkRat 0 1)] from by decide]
    norm_num [allBitstrings]
  · rw [show exact_distribution (add_two_bits_circuit true false)
        = .ok [([false, false], mkRat 0 1), ([false, true], mkRat 0 1),
               ([true, false], mkRat 1 1), ([true, true], mkRat 0 1)] from by decide]
    norm_num [allBitstrings]
  · rw [show exact_distribution (add_two_bits_circuit true true)
        = .ok [([false, false], mkRat 0 1), ([false, true], mkRat 1 1),
               ([true, false], mkRat 0 1), ([true, true], mkRat 0 1)] from by decide]
    norm_num [allBitstrings]

/-- Probability a distribution list assigns to outcome `o` (outcome
tuples are unique keys in the spec's Results mapping). -/
def distProb (d : List (List Bool × ℚ)) (o : List Bool) : ℚ :=
  ((d.find? fun p => p.1 == o).map Prod.snd).getD 0

/-- Probability that one BB84 round measures the bit `b2`. -/
def bb84_prob (aliceBit aliceBase bobBase b2 : Bool) : ℚ :=
  match exact_distribution (bb84_round_circuit aliceBit aliceBase bobBase) with
  | .ok d => distProb d [b2]
  | .error _ => 0

lemma bb84_prob_point_mass :
    ∀ aliceBit base b2 : Bool,
      bb84_prob aliceBit base base b2 = if b2 = aliceBit then 1 else 0 := by
  decide

/-- The BB84 key-accumulation loop of
`src/Cirq/quantum_crypto_bb84.py` lines 19–41: in round i one qubit is
prepared and measured (`sample i` stands for the measured bit the
simulator draws in round i), and the measured bit is appended to the key
exactly when the two bases agree. -/
def bb84_key (aliceBits aliceBases bobBases : List Bool) (sample : Nat → Bool) : List Bool :=
  (List.range aliceBits.length).filterMap fun i =>
    if aliceBases.getD i false = bobBases.getD i false then some (sample i) else none

/-- Claim C10: in every BB84 round whose bases agree, the measured bit
equals Alice's bit with probability 1; consequently, for any sampler that
only returns outcomes of positive probability, every bit the loop appends
to the key equals Alice's corresponding bit. -/
theorem bb84_matching_bases (aliceBits aliceBases bobBases : List Bool) (sample : Nat → Bool)
    (hvalid : ∀ i, i < aliceBits.length →
      aliceBases.getD i false = bobBases.getD i false →
      0 < bb84_prob (aliceBits.getD i false) (aliceBases.getD i false)
            (bobBases.getD i false) (sample i)) :
    (∀ i, i < aliceBits.length →
      aliceBases.getD i false = bobBases.getD i false →
      bb84_prob (aliceBits.getD i false) (aliceBases.getD i false)
        (bobBases.getD i false) (aliceBits.getD i false) = 1) ∧
    bb84_key aliceBits aliceBases bobBases sample
      = (List.range aliceBits.length).filterMap fun i =>
          if aliceBases.getD i false = bobBases.getD i false
          then some (aliceBits.getD i false) else none := by
  constructor
  · intro i hi hmatch
    rw [← hmatch, bb84_prob_point_mass]
    simp
  · unfold bb84_key
    apply List.filterMap_congr
    intro i hi
    by_cases hmatch : aliceBases.getD i false = bobBases.getD i false
    · rw [if_pos hmatch, if_pos hmatch]
      congr 1
      by_contra hne
      have hv := hvalid i (by simpa using hi) hmatch
      rw [← hmatch, bb84_prob_point_mass, if_neg hne] at hv
      exact lt_irrefl 0 hv
    · rw [if_neg hmatch, if_neg hmatch]

/-- Witness for C10: two rounds with matching bases (Z then X basis)
produce the key [1, 0], Alice's bits verbatim. -/
theorem bb84_matching_bases_witness :
    bb84_key [true, false] [false, true] [false, true]
        (fun i => [true, false].getD i false)
      = [true, false] := by
  have h := (bb84_matching_bases [true, false] [false, true] [false, true]
      (fun i => [true, false].getD i false) (by decide)).2
  rw [h]
  decide

end QEM
